import Mathlib

/-!
Verification of the `cookie-monster` cookie store facade (src/index.js).

JavaScript strings are modelled as `List Char` (sequences of Unicode scalar
values).  The ECMAScript built-ins used by the source — `String.prototype.slice`,
`String.prototype.indexOf`, `String.prototype.split` on the regexp `;\s*` and on
`'='`, `encodeURIComponent`, `decodeURIComponent` — are modelled below, faithful
to their specified behaviour (percent coding works on the UTF-8 bytes of each
scalar value; `decodeURIComponent` rejects malformed input, modelled by
returning `none` where the built-in throws `URIError`).
-/

set_option maxRecDepth 8000

namespace CookieMonster

/-- Characters matched by the regexp class `\s` in ECMAScript
(WhiteSpace and LineTerminator code points). -/
def jsIsSpace (c : Char) : Bool :=
  c = ' ' || c = '\t' || c = '\n' || c = '\r' ||
  c = Char.ofNat 11 || c = Char.ofNat 12 ||
  c = Char.ofNat 0xa0 || c = Char.ofNat 0x1680 ||
  (0x2000 ≤ c.toNat && c.toNat ≤ 0x200a) ||
  c = Char.ofNat 0x2028 || c = Char.ofNat 0x2029 ||
  c = Char.ofNat 0x202f || c = Char.ofNat 0x205f ||
  c = Char.ofNat 0x3000 || c = Char.ofNat 0xfeff

/-- Normalisation of a (possibly negative) index against a string length,
as in `String.prototype.slice`: negative indices count from the end and
everything is clamped into `[0, len]`. -/
def normIdx (len : Nat) (i : Int) : Nat :=
  if i < 0 then ((len : Int) + i).toNat else min i.toNat len

/-- Model of `s.slice(a, b)` on a JS string. -/
def jsSlice (s : List Char) (a b : Int) : List Char :=
  ((s.drop (normIdx s.length a)).take (normIdx s.length b - normIdx s.length a))

/-- Model of `s.slice(a)` on a JS string (slice to the end). -/
def jsSliceFrom (s : List Char) (a : Int) : List Char :=
  s.drop (normIdx s.length a)

/-- Model of `s.indexOf(c)` on a JS string searching for a single character:
the first index at which `c` occurs, or `-1`. -/
def jsIndexOf (s : List Char) (c : Char) : Int :=
  match s.findIdx? (fun x => x = c) with
  | some i => (i : Int)
  | none => -1

/-- Worker for `split(/;\s*/)`: `cur` holds the current entry reversed, and
`skip` is true while scanning the `\s*` run that belongs to the previous
semicolon (greedy whitespace consumption, during which `cur` is empty). -/
def splitCookiesAux : List Char → Bool → List Char → List (List Char)
  | [], _, cur => [cur.reverse]
  | c :: rest, skip, cur =>
    if skip && jsIsSpace c then splitCookiesAux rest true cur
    else if c = ';' then cur.reverse :: splitCookiesAux rest true []
    else splitCookiesAux rest false (c :: cur)

/-- Model of `line.split(/;\s*/)`: split on a semicolon followed by the maximal run
of whitespace.  On the empty string the regexp cannot match, so the result
is `[""]`, exactly as in ECMAScript. -/
def splitCookies (line : List Char) : List (List Char) :=
  splitCookiesAux line false []

/-- Uppercase hexadecimal digit, as emitted by `encodeURIComponent`. -/
def hexDigit (n : Nat) : Char :=
  if n < 10 then Char.ofNat (48 + n) else Char.ofNat (55 + n)

/-- Value of a hexadecimal digit character (both cases accepted, as in the
ECMAScript `Decode` algorithm); `none` on a non-hex character. -/
def hexVal (c : Char) : Option Nat :=
  if 48 ≤ c.toNat ∧ c.toNat ≤ 57 then some (c.toNat - 48)
  else if 65 ≤ c.toNat ∧ c.toNat ≤ 70 then some (c.toNat - 55)
  else if 97 ≤ c.toNat ∧ c.toNat ≤ 102 then some (c.toNat - 87)
  else none

/-- The `uriUnescaped` character set of `encodeURIComponent`:
ALPHA / DIGIT / `- _ . ! ~ * ' ( )`. -/
def uriUnreserved (c : Char) : Bool :=
  (65 ≤ c.toNat && c.toNat ≤ 90) || (97 ≤ c.toNat && c.toNat ≤ 122) ||
  (48 ≤ c.toNat && c.toNat ≤ 57) ||
  c = '-' || c = '_' || c = '.' || c = '!' || c = '~' || c = '*' ||
  c = Char.ofNat 39 || c = '(' || c = ')'

/-- UTF-8 bytes of a Unicode scalar value. -/
def utf8Bytes (n : Nat) : List Nat :=
  if n < 0x80 then [n]
  else if n < 0x800 then [0xc0 + n / 64, 0x80 + n % 64]
  else if n < 0x10000 then [0xe0 + n / 4096, 0x80 + n / 64 % 64, 0x80 + n % 64]
  else [0xf0 + n / 262144, 0x80 + n / 4096 % 64, 0x80 + n / 64 % 64, 0x80 + n % 64]

/-- Escape of one byte as `%XX`. -/
def pctEncodeByte (b : Nat) : List Char :=
  ['%', hexDigit (b / 16), hexDigit (b % 16)]

/-- Action of `encodeURIComponent` on a single scalar value. -/
def encodeChar (c : Char) : List Char :=
  if uriUnreserved c then [c] else ((utf8Bytes c.toNat).map pctEncodeByte).flatten

/-- ECMAScript `encodeURIComponent`. -/
def encodeURIComponent (s : List Char) : List Char :=
  (s.map encodeChar).flatten

/-- First phase of `decodeURIComponent`: turn the string into a sequence of
literal characters and `%XX`-escaped bytes; `none` on a malformed escape. -/
def uriTokens : List Char → Option (List (Sum Char Nat))
  | [] => some []
  | c :: rest =>
    if c = '%' then
      match rest with
      | h1 :: h2 :: rest2 =>
        match hexVal h1, hexVal h2 with
        | some a, some b => (uriTokens rest2).map (fun t => Sum.inr (16 * a + b) :: t)
        | _, _ => none
      | _ => none
    else (uriTokens rest).map (fun t => Sum.inl c :: t)

/-- Value carried by a continuation byte token: an escaped byte in
`[0x80, 0xC0)`; a literal character or any other byte is an error. -/
def contTok : Sum Char Nat → Option Nat
  | Sum.inl _ => none
  | Sum.inr b => if 0x80 ≤ b ∧ b < 0xc0 then some (b - 0x80) else none

/-- Decode one scalar value from the front of the token string, with the
strict UTF-8 validation the ECMAScript `Decode` algorithm performs (no
overlong forms, no surrogates, at most U+10FFFF): the decoded character and
the remaining tokens, or `none` on invalid input (including the empty
string, on which it is never called). -/
def decodeOne : List (Sum Char Nat) → Option (Char × List (Sum Char Nat))
  | [] => none
  | Sum.inl c :: rest => some (c, rest)
  | Sum.inr b :: rest =>
    if b < 0x80 then some (Char.ofNat b, rest)
    else if b < 0xc2 then none
    else if b < 0xe0 then
      (rest.head?.bind contTok).bind fun v2 =>
        some (Char.ofNat ((b - 0xc0) * 64 + v2), rest.tail)
    else if b < 0xf0 then
      (rest.head?.bind contTok).bind fun v2 =>
      (rest.tail.head?.bind contTok).bind fun v3 =>
        if 0x800 ≤ (b - 0xe0) * 4096 + v2 * 64 + v3 ∧
            ((b - 0xe0) * 4096 + v2 * 64 + v3 < 0xd800 ∨
             0xe000 ≤ (b - 0xe0) * 4096 + v2 * 64 + v3) then
          some (Char.ofNat ((b - 0xe0) * 4096 + v2 * 64 + v3), rest.tail.tail)
        else none
    else if b < 0xf5 then
      (rest.head?.bind contTok).bind fun v2 =>
      (rest.tail.head?.bind contTok).bind fun v3 =>
      (rest.tail.tail.head?.bind contTok).bind fun v4 =>
        if 0x10000 ≤ (b - 0xf0) * 262144 + v2 * 4096 + v3 * 64 + v4 ∧
            (b - 0xf0) * 262144 + v2 * 4096 + v3 * 64 + v4 < 0x110000 then
          some (Char.ofNat ((b - 0xf0) * 262144 + v2 * 4096 + v3 * 64 + v4),
            rest.tail.tail.tail)
        else none
    else none

/-- Second phase of `decodeURIComponent`, with explicit fuel (one unit per
decoded character; the string length is always enough, see `uriAssemble`). -/
def uriAssembleF : Nat → List (Sum Char Nat) → Option (List Char)
  | _, [] => some []
  | 0, _ :: _ => none
  | fuel + 1, tok :: rest =>
    match decodeOne (tok :: rest) with
    | some (c, rest2) => (uriAssembleF fuel rest2).map (fun l => c :: l)
    | none => none

/-- Second phase of `decodeURIComponent`: reassemble the token string into
scalar values. -/
def uriAssemble (l : List (Sum Char Nat)) : Option (List Char) :=
  uriAssembleF l.length l

/-- ECMAScript `decodeURIComponent`; `none` models a thrown `URIError`. -/
def decodeURIComponent (s : List Char) : Option (List Char) :=
  (uriTokens s).bind uriAssemble

/-! ## The store (src/index.js)

The document handle after the constructor's normalisation is an object with a
string-valued `cookie` field.  The optional `write` hook is modelled by a
boolean `hooked`: when it is `true` the hook is a pure collector (it records
the call and leaves the document untouched), which is the situation the spec's
test scenarios describe; when it is `false` the source assigns the formatted
string to `doc.cookie`.  Every operation that reaches the `write` primitive
also returns the list of `(cookie, meta)` arguments `write` was invoked with,
so that claims about which write calls happen are statable.  No claim involves
a `read` hook, so `read` is always the `doc.cookie.split(/;\s*/)` branch. -/

/-- The normalised document handle: an object with a `cookie` string. -/
structure Doc where
  cookie : List Char
deriving DecidableEq

/-- The recognised cookie options; a field is `none` when the corresponding
property is absent from `opts` (the source tests presence with `in`).
`secure` is the truthiness of `opts.secure`. -/
structure Opts where
  expires : Option (List Char)
  path : Option (List Char)
  domain : Option (List Char)
  secure : Bool
deriving DecidableEq

/-- The literal `{}` object. -/
def Opts.empty : Opts := ⟨none, none, none, false⟩

/-- The metadata object the source passes to the `write` primitive. -/
structure WriteMeta where
  remove : Bool
  value : List Char
  opts : Opts
  key : List Char
deriving DecidableEq

/-- One invocation of the `write` primitive: its two arguments. -/
abbrev WriteCall := List Char × WriteMeta

/-- A JavaScript value, as far as `setItem`'s `typeof` checks observe it. -/
inductive JSVal where
  | str : List Char → JSVal
  | num : Int → JSVal
  | bool : Bool → JSVal
  | null : JSVal
  | undef : JSVal
deriving DecidableEq

/-- Test `typeof v === 'string'`. -/
def JSVal.isString : JSVal → Bool
  | .str _ => true
  | _ => false

/-- The `read` primitive without a read hook:
`doc.cookie.split(splitter)`. -/
def read (doc : Doc) : List (List Char) := splitCookies doc.cookie

/-- The `write` primitive.  Returns the new document, the value `write`
returns (the assigned string; a collecting hook's return value is taken to
be its argument, no claim depends on it), and the recorded call. -/
def write (hooked : Bool) (doc : Doc) (cookie : List Char) (meta : WriteMeta) :
    Doc × List Char × List WriteCall :=
  (if hooked then doc else ⟨cookie⟩, cookie, [(cookie, meta)])

/-- The scanning loop of `getItem` over the entries `read()` produced.
`some none` is JavaScript `undefined` (the loop ran off the end), `none` is
a `URIError` escaping from `decodeURIComponent`. -/
def getItemList (key : List Char) : List (List Char) → Option (Option (List Char))
  | [] => some none
  | cookie :: rest =>
    (decodeURIComponent (jsSlice cookie 0 (jsIndexOf cookie '='))).bind fun name =>
      if name = key then
        (decodeURIComponent (jsSliceFrom cookie (jsIndexOf cookie '=' + 1))).map some
      else getItemList key rest

/-- Model of `getItem(key)` on a store with no read hook. -/
def getItem (doc : Doc) (key : List Char) : Option (Option (List Char)) :=
  getItemList key (read doc)

/-- The formatted string `setItem` builds from the already-encoded key and
value: the base pair, then the conditional `expires`, `path`, `domain`
segments and the `secure` flag, in source order. -/
def buildCookie (key value : List Char) (opts : Opts) : List Char :=
  let cookie := key ++ '=' :: value
  let cookie := match opts.expires with
    | some e => cookie ++ ("; expires=".data ++ e)
    | none => cookie
  let cookie := match opts.path with
    | some p => cookie ++ ("; path=".data ++ p)
    | none => cookie
  let cookie := match opts.domain with
    | some d => cookie ++ ("; domain=".data ++ d)
    | none => cookie
  if opts.secure then cookie ++ "; secure".data else cookie

/-- Model of `setItem(key, value, opts)`.  The middle component is the return value:
`none` is the literal `false` returned on a non-string key or value, and in
that case the write primitive is never reached. -/
def setItem (hooked : Bool) (doc : Doc) (key value : JSVal) (opts? : Option Opts) :
    Doc × Option (List Char) × List WriteCall :=
  match key, value with
  | .str k, .str v =>
    let opts := opts?.getD Opts.empty
    let ev := encodeURIComponent v
    let ek := encodeURIComponent k
    let cookie := buildCookie ek ev opts
    let (doc', ret, calls) := write hooked doc cookie ⟨false, ev, opts, ek⟩
    (doc', some ret, calls)
  | _, _ => (doc, none, [])

/-- The epoch-expiry suffix `removeItem` appends to the raw key. -/
def removeSuffix : List Char := "=;expires=Thu, 01 Jan 1970 00:00:01 GMT;".data

/-- Model of `removeItem(key)`: the key is used unencoded. -/
def removeItem (hooked : Bool) (doc : Doc) (key : List Char) :
    Doc × List Char × List WriteCall :=
  write hooked doc (key ++ removeSuffix) ⟨true, [], Opts.empty, key⟩

/-- The loop of `clear` over the snapshot of entries taken by its single
`read()` call: each entry's text before its first `=` (`split('=')[0]`) is
percent-decoded and handed to `removeItem`.  `none` is an escaping
`URIError`. -/
def clearList (hooked : Bool) : List (List Char) → Doc → Option (Doc × List WriteCall)
  | [], doc => some (doc, [])
  | e :: rest, doc =>
    (decodeURIComponent (e.takeWhile (fun c => c ≠ '='))).bind fun name =>
      (clearList hooked rest (removeItem hooked doc name).1).map
        (fun p => (p.1, (removeItem hooked doc name).2.2 ++ p.2))

/-- Model of `clear()`: entries are read once, then removed one by one. -/
def clear (hooked : Bool) (doc : Doc) : Option (Doc × List WriteCall) :=
  clearList hooked (read doc) doc

/-! ## Round-trip of the percent coding -/

theorem char_toNat_valid (c : Char) :
    c.toNat < 0xd800 ∨ (0xdfff < c.toNat ∧ c.toNat < 0x110000) := c.valid

theorem char_toNat_lt (c : Char) : c.toNat < 0x110000 := by
  rcases char_toNat_valid c with h | h
  · omega
  · omega

theorem hexVal_hexDigit (n : Nat) (h : n < 16) : hexVal (hexDigit n) = some n := by
  have : ∀ m : Fin 16, hexVal (hexDigit m.val) = some m.val := by decide
  exact this ⟨n, h⟩

theorem hexDigit_ne (n : Nat) (h : n < 16) : hexDigit n ≠ ';' ∧ hexDigit n ≠ '=' := by
  have : ∀ m : Fin 16, hexDigit m.val ≠ ';' ∧ hexDigit m.val ≠ '=' := by decide
  exact this ⟨n, h⟩

theorem utf8Bytes_lt {n : Nat} (h : n < 0x110000) : ∀ b ∈ utf8Bytes n, b < 256 := by
  intro b hb
  unfold utf8Bytes at hb
  split at hb
  · simp at hb; omega
  · split at hb
    · simp at hb; omega
    · split at hb
      · simp at hb
        rcases hb with hb | hb | hb <;> omega
      · simp at hb
        rcases hb with hb | hb | hb | hb <;> omega

theorem uriTokens_pct (b : Nat) (hb : b < 256) (rest : List Char) :
    uriTokens (pctEncodeByte b ++ rest) = (uriTokens rest).map (fun t => Sum.inr b :: t) := by
  have h1 : hexVal (hexDigit (b / 16)) = some (b / 16) := hexVal_hexDigit _ (by omega)
  have h2 : hexVal (hexDigit (b % 16)) = some (b % 16) := hexVal_hexDigit _ (by omega)
  have hb' : 16 * (b / 16) + b % 16 = b := Nat.div_add_mod b 16
  simp [pctEncodeByte, uriTokens, h1, h2, hb']

theorem uriTokens_pctList (bs : List Nat) (h : ∀ b ∈ bs, b < 256) (rest : List Char) :
    uriTokens ((bs.map pctEncodeByte).flatten ++ rest) =
      (uriTokens rest).map (fun t => bs.map Sum.inr ++ t) := by
  induction bs with
  | nil => simp
  | cons b bs ih =>
    simp only [List.map_cons, List.flatten_cons, List.append_assoc]
    rw [uriTokens_pct b (h b (by simp)) _, ih (fun x hx => h x (by simp [hx]))]
    cases uriTokens rest <;> simp

/-- The token string a single character encodes to. -/
def encTok (c : Char) : List (Sum Char Nat) :=
  if uriUnreserved c then [Sum.inl c] else (utf8Bytes c.toNat).map Sum.inr

theorem uriTokens_encodeChar (c : Char) (rest : List Char) :
    uriTokens (encodeChar c ++ rest) = (uriTokens rest).map (fun t => encTok c ++ t) := by
  by_cases h : uriUnreserved c
  · have hc : c ≠ '%' := by
      intro e; subst e; exact absurd h (by decide)
    simp only [encodeChar, encTok, h, if_true, List.singleton_append]
    rw [uriTokens.eq_def]
    simp [hc]
  · simp only [encodeChar, encTok, h, if_neg, Bool.false_eq_true, if_false]
    exact uriTokens_pctList _ (utf8Bytes_lt (char_toNat_lt c)) rest

theorem uriTokens_encode (s : List Char) :
    uriTokens (encodeURIComponent s) = some ((s.map encTok).flatten) := by
  induction s with
  | nil => simp [encodeURIComponent, uriTokens]
  | cons c s ih =>
    have : encodeURIComponent (c :: s) = encodeChar c ++ encodeURIComponent s := by
      simp [encodeURIComponent]
    rw [this, uriTokens_encodeChar, ih]
    simp

theorem decodeOne_le (tok : Sum Char Nat) (rest : List (Sum Char Nat)) (c : Char)
    (rest2 : List (Sum Char Nat)) (h : decodeOne (tok :: rest) = some (c, rest2)) :
    rest2.length ≤ rest.length := by
  have htail : ∀ l : List (Sum Char Nat), l.tail.length ≤ l.length := by
    intro l; cases l <;> simp
  cases tok with
  | inl c' =>
    simp only [decodeOne, Option.some_inj, Prod.mk.injEq] at h
    rw [← h.2]
  | inr b =>
    simp only [decodeOne] at h
    split at h
    · simp only [Option.some_inj, Prod.mk.injEq] at h
      rw [← h.2]
    · split at h
      · exact absurd h (by simp)
      · split at h
        · rcases hv : rest.head?.bind contTok with _ | v2 <;> rw [hv] at h
          · simp at h
          · simp only [Option.some_bind, Option.some_inj, Prod.mk.injEq] at h
            rw [← h.2]; exact htail rest
        · split at h
          · rcases hv : rest.head?.bind contTok with _ | v2 <;> rw [hv] at h
            · simp at h
            · rcases hv3 : rest.tail.head?.bind contTok with _ | v3 <;> rw [hv3] at h
              · simp at h
              · simp only [Option.some_bind] at h
                split at h
                · simp only [Option.some_inj, Prod.mk.injEq] at h
                  rw [← h.2]
                  exact le_trans (htail rest.tail) (htail rest)
                · exact absurd h (by simp)
          · split at h
            · rcases hv : rest.head?.bind contTok with _ | v2 <;> rw [hv] at h
              · simp at h
              · rcases hv3 : rest.tail.head?.bind contTok with _ | v3 <;> rw [hv3] at h
                · simp at h
                · rcases hv4 : rest.tail.tail.head?.bind contTok with _ | v4 <;> rw [hv4] at h
                  · simp at h
                  · simp only [Option.some_bind] at h
                    split at h
                    · simp only [Option.some_inj, Prod.mk.injEq] at h
                      rw [← h.2]
                      exact le_trans (htail rest.tail.tail)
                        (le_trans (htail rest.tail) (htail rest))
                    · exact absurd h (by simp)
            · exact absurd h (by simp)

theorem uriAssembleF_eq (f1 : Nat) : ∀ (f2 : Nat) (l : List (Sum Char Nat)),
    l.length ≤ f1 → l.length ≤ f2 → uriAssembleF f1 l = uriAssembleF f2 l := by
  induction f1 with
  | zero =>
    intro f2 l h1 _
    cases l with
    | nil => cases f2 <;> rfl
    | cons tok rest => simp at h1
  | succ g ih =>
    intro f2 l h1 h2
    cases l with
    | nil => cases f2 <;> rfl
    | cons tok rest =>
      cases f2 with
      | zero => simp at h2
      | succ g2 =>
        cases hd : decodeOne (tok :: rest) with
        | none => simp only [uriAssembleF, hd]
        | some p =>
          obtain ⟨c, rest2⟩ := p
          have hle := decodeOne_le tok rest c rest2 hd
          simp only [List.length_cons] at h1 h2
          simp only [uriAssembleF, hd]
          rw [ih g2 rest2 (by omega) (by omega)]

theorem uriAssemble_step (tok : Sum Char Nat) (rest : List (Sum Char Nat)) (c : Char)
    (rest2 : List (Sum Char Nat)) (h : decodeOne (tok :: rest) = some (c, rest2)) :
    uriAssemble (tok :: rest) = (uriAssemble rest2).map (fun l => c :: l) := by
  have hle := decodeOne_le tok rest c rest2 h
  show uriAssembleF (tok :: rest).length (tok :: rest) = _
  simp only [List.length_cons, uriAssembleF, h]
  rw [uriAssembleF_eq rest.length rest2.length rest2 hle (Nat.le_refl _)]
  rfl

theorem uriAssemble_utf8 (n : Nat)
    (hval : n < 0xd800 ∨ (0xdfff < n ∧ n < 0x110000)) (t : List (Sum Char Nat)) :
    uriAssemble ((utf8Bytes n).map Sum.inr ++ t) =
      (uriAssemble t).map (fun l => Char.ofNat n :: l) := by
  by_cases h1 : n < 0x80
  · have hd : decodeOne (Sum.inr n :: t) = some (Char.ofNat n, t) := by
      simp [decodeOne, h1]
    have hs := uriAssemble_step _ _ _ _ hd
    simpa [utf8Bytes, h1] using hs
  · by_cases h2 : n < 0x800
    · have c1 : ¬ (0xc0 + n / 64 < 0x80) := by omega
      have c2 : ¬ (0xc0 + n / 64 < 0xc2) := by omega
      have c3 : 0xc0 + n / 64 < 0xe0 := by omega
      have c4 : 0x80 ≤ 0x80 + n % 64 ∧ 0x80 + n % 64 < 0xc0 := by omega
      have harg : (0xc0 + n / 64 - 0xc0) * 64 + (0x80 + n % 64 - 0x80) = n := by omega
      have hd : decodeOne (Sum.inr (0xc0 + n / 64) :: Sum.inr (0x80 + n % 64) :: t) =
          some (Char.ofNat n, t) := by
        simp only [decodeOne, List.head?_cons, List.tail_cons, Option.some_bind, contTok]
        rw [if_neg c1, if_neg c2, if_pos c3, if_pos c4]
        simp only [Option.some_bind]
        rw [harg]
      have hs := uriAssemble_step _ _ _ _ hd
      simpa [utf8Bytes, h1, h2] using hs
    · by_cases h3 : n < 0x10000
      · have d2 := Nat.div_add_mod (n / 64) 64
        have d3 : n / 64 / 64 = n / 4096 := by rw [Nat.div_div_eq_div_mul]
        have c1 : ¬ (0xe0 + n / 4096 < 0x80) := by omega
        have c2 : ¬ (0xe0 + n / 4096 < 0xc2) := by omega
        have c3 : ¬ (0xe0 + n / 4096 < 0xe0) := by omega
        have c4 : 0xe0 + n / 4096 < 0xf0 := by omega
        have c5 : 0x80 ≤ 0x80 + n / 64 % 64 ∧ 0x80 + n / 64 % 64 < 0xc0 := by omega
        have c6 : 0x80 ≤ 0x80 + n % 64 ∧ 0x80 + n % 64 < 0xc0 := by omega
        have harg : (0xe0 + n / 4096 - 0xe0) * 4096 + (0x80 + n / 64 % 64 - 0x80) * 64 +
            (0x80 + n % 64 - 0x80) = n := by omega
        have c7 : 0x800 ≤ (0xe0 + n / 4096 - 0xe0) * 4096 + (0x80 + n / 64 % 64 - 0x80) * 64 +
            (0x80 + n % 64 - 0x80) ∧
            ((0xe0 + n / 4096 - 0xe0) * 4096 + (0x80 + n / 64 % 64 - 0x80) * 64 +
              (0x80 + n % 64 - 0x80) < 0xd800 ∨
             0xe000 ≤ (0xe0 + n / 4096 - 0xe0) * 4096 + (0x80 + n / 64 % 64 - 0x80) * 64 +
              (0x80 + n % 64 - 0x80)) := by
          rw [harg]; omega
        have hd : decodeOne (Sum.inr (0xe0 + n / 4096) :: Sum.inr (0x80 + n / 64 % 64) ::
            Sum.inr (0x80 + n % 64) :: t) = some (Char.ofNat n, t) := by
          simp only [decodeOne, List.head?_cons, List.tail_cons, Option.some_bind, contTok]
          rw [if_neg c1, if_neg c2, if_neg c3, if_pos c4, if_pos c5, if_pos c6]
          simp only [Option.some_bind]
          rw [if_pos c7, harg]
        have hs := uriAssemble_step _ _ _ _ hd
        simpa [utf8Bytes, h1, h2, h3] using hs
      · have hn4 : n < 0x110000 := by omega
        have d2 := Nat.div_add_mod (n / 64) 64
        have d3 : n / 64 / 64 = n / 4096 := by rw [Nat.div_div_eq_div_mul]
        have d4 := Nat.div_add_mod (n / 4096) 64
        have d5 : n / 4096 / 64 = n / 262144 := by rw [Nat.div_div_eq_div_mul]
        have c1 : ¬ (0xf0 + n / 262144 < 0x80) := by omega
        have c2 : ¬ (0xf0 + n / 262144 < 0xc2) := by omega
        have c3 : ¬ (0xf0 + n / 262144 < 0xe0) := by omega
        have c4 : ¬ (0xf0 + n / 262144 < 0xf0) := by omega
        have c5 : 0xf0 + n / 262144 < 0xf5 := by omega
        have c6 : 0x80 ≤ 0x80 + n / 4096 % 64 ∧ 0x80 + n / 4096 % 64 < 0xc0 := by omega
        have c7 : 0x80 ≤ 0x80 + n / 64 % 64 ∧ 0x80 + n / 64 % 64 < 0xc0 := by omega
        have c8 : 0x80 ≤ 0x80 + n % 64 ∧ 0x80 + n % 64 < 0xc0 := by omega
        have harg : (0xf0 + n / 262144 - 0xf0) * 262144 +
            (0x80 + n / 4096 % 64 - 0x80) * 4096 +
            (0x80 + n / 64 % 64 - 0x80) * 64 + (0x80 + n % 64 - 0x80) = n := by omega
        have c9 : 0x10000 ≤ (0xf0 + n / 262144 - 0xf0) * 262144 +
              (0x80 + n / 4096 % 64 - 0x80) * 4096 +
              (0x80 + n / 64 % 64 - 0x80) * 64 + (0x80 + n % 64 - 0x80) ∧
            (0xf0 + n / 262144 - 0xf0) * 262144 + (0x80 + n / 4096 % 64 - 0x80) * 4096 +
              (0x80 + n / 64 % 64 - 0x80) * 64 + (0x80 + n % 64 - 0x80) < 0x110000 := by
          rw [harg]; omega
        have hd : decodeOne (Sum.inr (0xf0 + n / 262144) :: Sum.inr (0x80 + n / 4096 % 64) ::
            Sum.inr (0x80 + n / 64 % 64) :: Sum.inr (0x80 + n % 64) :: t) =
            some (Char.ofNat n, t) := by
          simp only [decodeOne, List.head?_cons, List.tail_cons, Option.some_bind, contTok]
          rw [if_neg c1, if_neg c2, if_neg c3, if_neg c4, if_pos c5, if_pos c6, if_pos c7,
            if_pos c8]
          simp only [Option.some_bind]
          rw [if_pos c9, harg]
        have hs := uriAssemble_step _ _ _ _ hd
        simpa [utf8Bytes, h1, h2, h3] using hs

theorem uriAssemble_encTok (c : Char) (t : List (Sum Char Nat)) :
    uriAssemble (encTok c ++ t) = (uriAssemble t).map (fun l => c :: l) := by
  by_cases h : uriUnreserved c
  · have hd : decodeOne (Sum.inl c :: t) = some (c, t) := rfl
    have hs := uriAssemble_step _ _ _ _ hd
    simpa [encTok, h] using hs
  · simp only [encTok, h, Bool.false_eq_true, if_false]
    rw [uriAssemble_utf8 c.toNat (char_toNat_valid c) t, Char.ofNat_toNat]

theorem uriAssemble_encToks (s : List Char) :
    uriAssemble ((s.map encTok).flatten) = some s := by
  induction s with
  | nil => rfl
  | cons c s ih =>
    simp only [List.map_cons, List.flatten_cons]
    rw [uriAssemble_encTok, ih]
    rfl

theorem decode_encode (s : List Char) :
    decodeURIComponent (encodeURIComponent s) = some s := by
  rw [decodeURIComponent, uriTokens_encode]
  exact uriAssemble_encToks s

/-! ## Shape of encoded output, splitting, scanning -/

/-- Output safety: `encodeURIComponent` never emits a `;` or an `=`: it emits
unreserved characters, `%`, and uppercase hex digits. -/
theorem encode_safe (s : List Char) : ∀ c ∈ encodeURIComponent s, c ≠ ';' ∧ c ≠ '=' := by
  intro c hc
  simp only [encodeURIComponent, List.mem_flatten, List.mem_map] at hc
  obtain ⟨l, ⟨a, _, rfl⟩, hcl⟩ := hc
  by_cases h : uriUnreserved a
  · simp only [encodeChar, h, if_true, List.mem_singleton] at hcl
    subst hcl
    constructor <;> rintro rfl <;> exact absurd h (by decide)
  · simp only [encodeChar, h, Bool.false_eq_true, if_false, List.mem_flatten,
      List.mem_map] at hcl
    obtain ⟨lb, ⟨b, hb, rfl⟩, hclb⟩ := hcl
    have hb256 : b < 256 := utf8Bytes_lt (char_toNat_lt a) b hb
    simp only [pctEncodeByte, List.mem_cons, List.not_mem_nil, or_false] at hclb
    rcases hclb with rfl | rfl | rfl
    · exact ⟨by decide, by decide⟩
    · exact hexDigit_ne _ (by omega)
    · exact hexDigit_ne _ (by omega)

theorem splitCookiesAux_no_semi (l : List Char) (h : ';' ∉ l) :
    ∀ cur, splitCookiesAux l false cur = [cur.reverse ++ l] := by
  induction l with
  | nil => intro cur; simp [splitCookiesAux]
  | cons c rest ih =>
    intro cur
    have hc : ¬ (c = ';') := by
      rintro rfl; exact h (List.mem_cons_self _ _)
    have h' : ';' ∉ rest := fun hm => h (List.mem_cons_of_mem _ hm)
    simp only [splitCookiesAux, Bool.false_and, Bool.false_eq_true, if_false, if_neg hc]
    rw [ih h' (c :: cur)]
    simp

/-- A line without semicolons splits into the single entry it is. -/
theorem splitCookies_no_semi (l : List Char) (h : ';' ∉ l) : splitCookies l = [l] := by
  rw [splitCookies, splitCookiesAux_no_semi l h []]
  simp

theorem findIdx_sep (ek ev : List Char) (h : '=' ∉ ek) :
    (ek ++ '=' :: ev).findIdx? (fun x => x = '=') = some ek.length := by
  induction ek with
  | nil => simp
  | cons c ek ih =>
    have hc : ¬ (c = '=') := by
      rintro rfl; exact h (List.mem_cons_self _ _)
    have h' : '=' ∉ ek := fun hm => h (List.mem_cons_of_mem _ hm)
    simp only [List.cons_append, List.findIdx?_cons, hc, decide_False, Bool.false_eq_true,
      if_false, List.findIdx?_start_succ, ih h', Option.map_some, List.length_cons]
    simp

/-- Computation of `indexOf('=')` on a string of the shape `ek ++ "=" ++ ev` with no `=`
in `ek` finds exactly the separator. -/
theorem jsIndexOf_sep (ek ev : List Char) (h : '=' ∉ ek) :
    jsIndexOf (ek ++ '=' :: ev) '=' = (ek.length : Int) := by
  rw [jsIndexOf, findIdx_sep ek ev h]

theorem jsIndexOf_none (e : List Char) (h : '=' ∉ e) : jsIndexOf e '=' = -1 := by
  rw [jsIndexOf]
  have : e.findIdx? (fun x => x = '=') = none := by
    rw [List.findIdx?_eq_none_iff]
    intro x hx
    simp only [decide_eq_false_iff_not]
    rintro rfl; exact h hx
  rw [this]

theorem normIdx_zero (len : Nat) : normIdx len 0 = 0 := by
  simp [normIdx]

theorem normIdx_ofNat (len k : Nat) (h : k ≤ len) : normIdx len (k : Int) = k := by
  simp only [normIdx]
  rw [if_neg (by omega)]
  simp only [Int.toNat_ofNat]
  omega

theorem jsSlice_sep (ek ev : List Char) :
    jsSlice (ek ++ '=' :: ev) 0 (ek.length : Int) = ek := by
  have hlen : (ek ++ '=' :: ev).length = ek.length + (ev.length + 1) := by simp
  have h0 : normIdx (ek ++ '=' :: ev).length 0 = 0 := normIdx_ofNat _ 0 (by omega)
  have h1 : normIdx (ek ++ '=' :: ev).length (ek.length : Int) = ek.length := by
    rw [normIdx_ofNat _ _ (by rw [hlen]; omega)]
  rw [jsSlice, h0, h1]
  simp only [List.drop_zero, Nat.sub_zero]
  exact List.take_left ek ('=' :: ev)

theorem jsSliceFrom_sep (ek ev : List Char) :
    jsSliceFrom (ek ++ '=' :: ev) ((ek.length : Int) + 1) = ev := by
  have hlen : (ek ++ '=' :: ev).length = ek.length + (ev.length + 1) := by simp
  have hcast : ((ek.length : Int) + 1) = ((ek.length + 1 : Nat) : Int) := by omega
  have h1 : normIdx (ek ++ '=' :: ev).length ((ek.length : Int) + 1) = ek.length + 1 := by
    rw [hcast, normIdx_ofNat _ _ (by rw [hlen]; omega)]
  rw [jsSliceFrom, h1]
  have hsplit : ek ++ '=' :: ev = (ek ++ ['=']) ++ ev := by simp
  rw [hsplit, List.drop_left' (by simp)]

/-- The scanning loop, one step, when the head entry's name decodes to the
requested key: the loop returns this entry's decoded value and never looks
at the remaining entries. -/
theorem getItemList_match (key cookie : List Char) (rest : List (List Char))
    (h : decodeURIComponent (jsSlice cookie 0 (jsIndexOf cookie '=')) = some key) :
    getItemList key (cookie :: rest) =
      (decodeURIComponent (jsSliceFrom cookie (jsIndexOf cookie '=' + 1))).map some := by
  simp only [getItemList, h, Option.some_bind, eq_self_iff_true, if_true]

/-- The scanning loop, one step, when the head entry's name decodes to some
other name: the loop moves on. -/
theorem getItemList_skip (key cookie name : List Char) (rest : List (List Char))
    (h : decodeURIComponent (jsSlice cookie 0 (jsIndexOf cookie '=')) = some name)
    (hne : name ≠ key) :
    getItemList key (cookie :: rest) = getItemList key rest := by
  simp only [getItemList, h, Option.some_bind, if_neg hne]

/-! ## The claims -/

/-- C1: for every string key `k` and string value `v` (delimiters, whitespace
and non-ASCII included), on a store with no hooks, `setItem(k, v)` followed by
`getItem(k)` returns exactly `v`. -/
theorem c1_round_trip (k v : List Char) (doc : Doc) :
    getItem (setItem false doc (JSVal.str k) (JSVal.str v) none).1 k = some (some v) := by
  have hdoc : (setItem false doc (JSVal.str k) (JSVal.str v) none).1 =
      ⟨encodeURIComponent k ++ '=' :: encodeURIComponent v⟩ := rfl
  have hkeq : '=' ∉ encodeURIComponent k := fun hm => (encode_safe k '=' hm).2 rfl
  have hsemi : ';' ∉ encodeURIComponent k ++ '=' :: encodeURIComponent v := by
    intro hm
    rcases List.mem_append.mp hm with hm | hm
    · exact (encode_safe k ';' hm).1 rfl
    · rcases List.mem_cons.mp hm with hm | hm
      · exact absurd hm (by decide)
      · exact (encode_safe v ';' hm).1 rfl
  have hidx : jsIndexOf (encodeURIComponent k ++ '=' :: encodeURIComponent v) '=' =
      ((encodeURIComponent k).length : Int) := jsIndexOf_sep _ _ hkeq
  have hname : decodeURIComponent
      (jsSlice (encodeURIComponent k ++ '=' :: encodeURIComponent v) 0
        (jsIndexOf (encodeURIComponent k ++ '=' :: encodeURIComponent v) '=')) = some k := by
    rw [hidx, jsSlice_sep, decode_encode]
  rw [hdoc, getItem, read, splitCookies_no_semi _ hsemi, getItemList_match _ _ _ hname,
    hidx, jsSliceFrom_sep, decode_encode]
  rfl

/-- C2: when the key or the value is not a string, `setItem` returns the
failure sentinel `false`, performs no write call, and leaves the document
unchanged. -/
theorem c2_invalid_arguments (hooked : Bool) (doc : Doc) (key value : JSVal)
    (opts? : Option Opts) (h : key.isString = false ∨ value.isString = false) :
    setItem hooked doc key value opts? = (doc, none, []) := by
  cases key <;> cases value <;>
    first
    | rfl
    | exact absurd h (by simp [JSVal.isString])

theorem c2_invalid_arguments_witness :
    setItem false ⟨[]⟩ (JSVal.num 42) (JSVal.str ('v' :: [])) none = (⟨[]⟩, none, []) ∧
    setItem false ⟨[]⟩ (JSVal.str ('k' :: [])) JSVal.null none = (⟨[]⟩, none, []) :=
  ⟨c2_invalid_arguments false ⟨[]⟩ (JSVal.num 42) (JSVal.str ('v' :: [])) none (Or.inl rfl),
   c2_invalid_arguments false ⟨[]⟩ (JSVal.str ('k' :: [])) JSVal.null none (Or.inr rfl)⟩

/-- C3: when several entries parse to the same name, `getItem` returns the
decoded value of the first matching entry and stops scanning (the entries
after the match are irrelevant); in particular on the raw line `a=1; a=2`,
`getItem('a')` is `'1'`. -/
theorem c3_first_match_wins :
    (∀ (key : List Char) (es : List (List Char)) (e : List Char) (rest : List (List Char)),
      (∀ e' ∈ es, ∃ n, decodeURIComponent (jsSlice e' 0 (jsIndexOf e' '=')) = some n ∧
        n ≠ key) →
      decodeURIComponent (jsSlice e 0 (jsIndexOf e '=')) = some key →
      getItemList key (es ++ e :: rest) =
        (decodeURIComponent (jsSliceFrom e (jsIndexOf e '=' + 1))).map some) ∧
    getItem ⟨"a=1; a=2".data⟩ "a".data = some (some "1".data) := by
  constructor
  · intro key es e rest hes he
    induction es with
    | nil => simpa using getItemList_match key e rest he
    | cons e' es ih =>
      obtain ⟨n, hn, hne⟩ := hes e' (List.mem_cons_self _ _)
      rw [List.cons_append, getItemList_skip key e' n _ hn hne]
      exact ih (fun x hx => hes x (List.mem_cons_of_mem _ hx))
  · decide

theorem c3_first_match_wins_witness :
    getItemList "a".data ("a=1".data :: "a=2".data :: []) =
      (decodeURIComponent (jsSliceFrom "a=1".data (jsIndexOf "a=1".data '=' + 1))).map some :=
  c3_first_match_wins.1 "a".data [] "a=1".data ("a=2".data :: []) (by simp) (by decide)

/-- C4: the string `setItem` builds is the encoded pair followed by the
`expires`, `path`, `domain` and `secure` segments in that fixed order (the
options are a record, so the order they were supplied in cannot matter);
each of the first three segments is present exactly when the corresponding
option is, and `; secure` exactly when `secure` is truthy.  The write call
carries this string and the metadata. -/
theorem c4_attribute_order (k v : List Char) (opts : Opts) (hooked : Bool) (doc : Doc) :
    setItem hooked doc (JSVal.str k) (JSVal.str v) (some opts) =
      (let s := encodeURIComponent k ++ '=' :: encodeURIComponent v ++
        (match opts.expires with | some e => "; expires=".data ++ e | none => []) ++
        (match opts.path with | some p => "; path=".data ++ p | none => []) ++
        (match opts.domain with | some d => "; domain=".data ++ d | none => []) ++
        (if opts.secure then "; secure".data else []);
      ((if hooked then doc else ⟨s⟩), some s,
        [(s, ⟨false, encodeURIComponent v, opts, encodeURIComponent k⟩)])) := by
  obtain ⟨oe, op, od, osec⟩ := opts
  cases oe <;> cases op <;> cases od <;> cases osec <;>
    simp [setItem, buildCookie, write, List.append_assoc]

/-- C5: `removeItem(key)` hands the write primitive exactly the raw key
(unencoded, unlike `setItem`, as the last conjunct shows on `';'`) followed
by the fixed epoch-expiry suffix, with metadata `{remove: true, value: '',
opts: {}, key}`, and returns whatever the write primitive returns. -/
theorem c5_remove_item (hooked : Bool) (doc : Doc) (key : List Char) :
    removeItem hooked doc key =
      ((if hooked then doc else ⟨key ++ removeSuffix⟩), key ++ removeSuffix,
        [(key ++ removeSuffix, ⟨true, [], Opts.empty, key⟩)]) ∧
    removeItem hooked doc key =
      write hooked doc (key ++ removeSuffix) ⟨true, [], Opts.empty, key⟩ ∧
    removeSuffix = "=;expires=Thu, 01 Jan 1970 00:00:01 GMT;".data ∧
    encodeURIComponent (';' :: []) ≠ ';' :: [] :=
  ⟨rfl, rfl, rfl, by decide⟩

/-- C6: when every entry name decodes, `clear()` makes exactly one write
call per entry of the one snapshot `read()` produced, in order, and the
`i`-th call is `removeItem` applied to the percent-decoding of the text of
the `i`-th entry before its first `=`. -/
theorem c6_clear_calls (hooked : Bool) (doc : Doc)
    (h : ∀ e ∈ read doc,
      (decodeURIComponent (e.takeWhile (fun c => c ≠ '='))).isSome = true) :
    ∃ doc2, clear hooked doc = some (doc2, (read doc).map (fun e =>
      ((decodeURIComponent (e.takeWhile (fun c => c ≠ '='))).getD [] ++ removeSuffix,
       ⟨true, [], Opts.empty,
        (decodeURIComponent (e.takeWhile (fun c => c ≠ '='))).getD []⟩))) := by
  rw [clear]
  revert h
  generalize read doc = es
  intro h
  induction es generalizing doc with
  | nil => exact ⟨doc, rfl⟩
  | cons e es ih =>
    have he := h e (List.mem_cons_self _ _)
    obtain ⟨n, hn⟩ := Option.isSome_iff_exists.mp he
    obtain ⟨d2, hd2⟩ := ih (removeItem hooked doc n).1
      (fun x hx => h x (List.mem_cons_of_mem _ hx))
    refine ⟨d2, ?_⟩
    simp only [clearList, hn, Option.some_bind, hd2, Option.map_some, List.map_cons]
    simp [removeItem, write, hn]

theorem c6_clear_calls_witness :
    ∃ doc2, clear true ⟨"a=1; b=2; c=3".data⟩ =
      some (doc2, (read ⟨"a=1; b=2; c=3".data⟩).map (fun e =>
      ((decodeURIComponent (e.takeWhile (fun c => c ≠ '='))).getD [] ++ removeSuffix,
       ⟨true, [], Opts.empty,
        (decodeURIComponent (e.takeWhile (fun c => c ≠ '='))).getD []⟩))) :=
  c6_clear_calls true ⟨"a=1; b=2; c=3".data⟩ (by decide)

/-- C7 counterexample: on a store seeded with `a=1; b=2; c=3` and a write
hook that merely collects the calls, `clear()` leaves the cookie line
untouched, so a subsequent `getItem` does *not* return the not-found
sentinel for `a`, `b` or `c` — refuting the claim. -/
theorem c7_counterexample :
    (clear true ⟨"a=1; b=2; c=3".data⟩).map Prod.fst = some ⟨"a=1; b=2; c=3".data⟩ ∧
    getItem ⟨"a=1; b=2; c=3".data⟩ "a".data ≠ some none ∧
    getItem ⟨"a=1; b=2; c=3".data⟩ "b".data ≠ some none ∧
    getItem ⟨"a=1; b=2; c=3".data⟩ "c".data ≠ some none := by
  decide

/-- C7 amended: with a collecting write hook, `clear()` still makes its
three removal write calls but mutates nothing, so after it returns,
`getItem` yields the original values `1`, `2`, `3` for `a`, `b`, `c`,
not the not-found sentinel. -/
theorem c7_amended :
    (clear true ⟨"a=1; b=2; c=3".data⟩).map (fun p => p.2.length) = some 3 ∧
    (clear true ⟨"a=1; b=2; c=3".data⟩).map Prod.fst = some ⟨"a=1; b=2; c=3".data⟩ ∧
    getItem ⟨"a=1; b=2; c=3".data⟩ "a".data = some (some "1".data) ∧
    getItem ⟨"a=1; b=2; c=3".data⟩ "b".data = some (some "2".data) ∧
    getItem ⟨"a=1; b=2; c=3".data⟩ "c".data = some (some "3".data) := by
  decide

/-- C8 counterexample: on the raw single-entry line `ab` (no `=`), the
claim predicts candidate name `ab` and `getItem('ab') = ''`; the code
instead takes the name from `slice(0, -1)` (the entry minus its last
character) and the value from `slice(0)` (the whole entry), so
`getItem('ab')` is the not-found sentinel while `getItem('a')` is `'ab'`. -/
theorem c8_counterexample :
    ('=' ∉ "ab".data) ∧
    getItem ⟨"ab".data⟩ "ab".data = some none ∧
    getItem ⟨"ab".data⟩ "a".data = some (some "ab".data) := by
  decide

/-- C8 amended: for an entry without `=`, `indexOf` yields `-1`, so the
candidate name is the percent-decoding of the entry minus its last
character (`slice(0, -1)`), and on a match the returned value is the
percent-decoding of the whole entry (`slice(0)`), not the empty string. -/
theorem c8_amended (e key : List Char) (rest : List (List Char)) (h : '=' ∉ e)
    (hk : decodeURIComponent e.dropLast = some key) :
    getItemList key (e :: rest) = (decodeURIComponent e).map some := by
  have hidx : jsIndexOf e '=' = -1 := jsIndexOf_none e h
  have hnorm : normIdx e.length (-1) = e.length - 1 := by
    simp only [normIdx]
    rw [if_pos (by omega)]
    omega
  have hslice : jsSlice e 0 (-1) = e.dropLast := by
    rw [jsSlice, hnorm, normIdx_zero]
    simp [List.dropLast_eq_take]
  have hfrom : jsSliceFrom e (-1 + 1) = e := by
    rw [jsSliceFrom]
    norm_num
    rw [normIdx_zero]
    simp
  have hname : decodeURIComponent (jsSlice e 0 (jsIndexOf e '=')) = some key := by
    rw [hidx, hslice, hk]
  rw [getItemList_match key e rest hname, hidx, hfrom]

theorem c8_amended_witness :
    getItemList "a".data ("ab".data :: []) = (decodeURIComponent "ab".data).map some :=
  c8_amended "ab".data "a".data [] (by decide) (by decide)

/-- C9: on a store whose cookie line is empty, `getItem` returns the
not-found sentinel `undefined` for every non-empty key (the one entry the
split produces parses to the empty name). -/
theorem c9_missing_key (key : List Char) (h : key ≠ []) :
    getItem ⟨[]⟩ key = some none := by
  have hread : read ⟨[]⟩ = [[]] := rfl
  have hname : decodeURIComponent (jsSlice [] 0 (jsIndexOf [] '=')) = some [] := rfl
  rw [getItem, hread, getItemList_skip key [] [] [] hname (fun he => h he.symm)]
  rfl

theorem c9_missing_key_witness : getItem ⟨[]⟩ "missing".data = some none :=
  c9_missing_key "missing".data (by decide)

/-- C10: on a store whose cookie line is empty, `getItem('')` returns the
empty string, not the not-found sentinel: the split yields one empty entry,
which parses to name `''` and value `''`. -/
theorem c10_empty_key : getItem ⟨[]⟩ [] = some (some []) := by decide

end CookieMonster
